import Mathlib

/-!
Verification of the disk-seek scheduling simulator (main.c).

Shallow embedding of the C program: a disk-head simulator that reorders a
sequence of track requests (SeekList) under three policies — first come first
served, shortest seek first, and the elevator algorithm — and reports travel
distances and distribution statistics.

Modelling conventions:
* C `int` values are modelled as unbounded `Int`.  The program's data domain
  is tracks in [0, 65535] and realistic request counts, where no `int`
  arithmetic overflows; the `INT_MAX` / `INT_MIN` sentinels of the search
  loops are modelled as absent bounds (`Option Int` = none, or an `Option`
  accumulator), which coincides with the C behaviour on that domain.
* A `SeekList` is a `List Int`; in-place element swaps become functional
  updates with `List.set`.
* C `for` loops over indices become structural recursions; where a loop's
  extent is an index range, the recursion runs on the (precomputed) iteration
  count, which matches the C loop whose bound is loop-invariant.
* IEEE `double` arithmetic of the statistics is modelled over `ℚ`, with the
  non-finite result of a division by a zero count (`0 / 0.0` = NaN) modelled
  as `none`.
-/

namespace DiskSim

open List

/-- D_SIZE_MIN from main.c. -/
def D_SIZE_MIN : Int := 0

/-- D_SIZE_MAX from main.c. -/
def D_SIZE_MAX : Int := 65535

/-- D_POS_INIT from main.c (default initial head position). -/
def D_POS_INIT : Int := 32767

/-! ## Input ingestion: extractSeeks -/

/-- Bounds check of extractSeeks: D_SIZE_MIN <= seek && seek <= D_SIZE_MAX. -/
def inBounds (x : Int) : Bool := decide (D_SIZE_MIN ≤ x) && decide (x ≤ D_SIZE_MAX)

/-- extractSeeks (main.c): every parsed integer is appended to the list when it
is in bounds; otherwise a diagnostic is printed and the value is dropped.
First component: the collected seek list; second component: the values
reported as out of bounds, in the order the diagnostics appear. -/
def extractSeeks : List Int → List Int × List Int
  | [] => ([], [])
  | x :: xs =>
    let r := extractSeeks xs
    if inBounds x then (x :: r.1, r.2) else (r.1, x :: r.2)

/-! ## Statistics: printRunStats distance, printOverview mean / variance -/

/-- The distance computation of printRunStats (main.c): starting from the
current start position, sum the absolute differences of consecutive visited
positions. -/
def totalDistance (pos : Int) : List Int → Int
  | [] => 0
  | x :: xs => |x - pos| + totalDistance x xs

/-- The sum loop of printOverview (main.c); `long sum` does not overflow on
the program's domain. -/
def overviewSum (l : List Int) : Int := l.foldl (· + ·) 0

/-- An IEEE double division by a count, as it appears in printOverview
(main.c): dividing by a zero count yields a non-finite value (NaN), modelled
as `none`; otherwise the exact rational quotient. -/
def ieeeDivByCount (num : ℚ) (n : Nat) : Option ℚ :=
  if n = 0 then none else some (num / n)

/-- printOverview (main.c): mean = sum / (double)seeks.length, with no guard
for a zero length. -/
def overviewMean (l : List Int) : Option ℚ :=
  ieeeDivByCount ((overviewSum l : Int) : ℚ) l.length

/-- printOverview (main.c): variance = sumOfDeviations / (double)seeks.length.
A NaN mean propagates through the squared deviations, and the final division
is again by the unguarded length. -/
def overviewVariance (l : List Int) : Option ℚ :=
  match overviewMean l with
  | none => none
  | some m => ieeeDivByCount (l.foldl (fun acc x => acc + ((x : ℚ) - m) ^ 2) 0) l.length

/-! ## firstComeFirstServed -/

/-- The tally walk shared by firstComeFirstServed and the closing loop of
elevatorAlgorithm (main.c): walk the list from a start position, counting the
entries that differ from their predecessor; returns the final position
(lastPosition / seekPosition) and the number of tally increments. -/
def walkTally (pos : Int) : List Int → Int × Nat
  | [] => (pos, 0)
  | x :: xs =>
    let r := walkTally x xs
    (r.1, r.2 + (if x ≠ pos then 1 else 0))

/-- firstComeFirstServed (main.c): the list itself is never written; the
function only walks it to update the global firstComeStart / firstComeTally.
Returns (sequence, final position, tally increments). -/
def firstComeFirstServed (start : Int) (l : List Int) : List Int × Int × Nat :=
  (l, walkTally start l)

/-! ## shortestSeekFirst -/

/-- The inner scan of shortestSeekFirst (the j loop of main.c): left-to-right
over the remaining suffix, keeping (bestIndex, nextPosition, smallestDistance)
and replacing it only on a strictly smaller distance.  The initial state
bestIndex = -1 / smallestDistance = INT_MAX is modelled as `none`; on the
program's bounded domain the first element always has distance < INT_MAX, so
the first comparison always succeeds, as in the C code. -/
def findBestGo (head : Int) : List Int → Nat → Option (Nat × Int × Int) → Option (Nat × Int × Int)
  | [], _, best => best
  | x :: xs, k, best =>
    let d := |x - head|
    match best with
    | none => findBestGo head xs (k + 1) (some (k, x, d))
    | some (bk, bv, bd) =>
      if d < bd then findBestGo head xs (k + 1) (some (k, x, d))
      else findBestGo head xs (k + 1) (some (bk, bv, bd))

/-- The inner scan of shortestSeekFirst started on a suffix. -/
def findBest (head : Int) (l : List Int) : Option (Nat × Int × Int) :=
  findBestGo head l 0 none

/-- The outer i loop of shortestSeekFirst (main.c), acting on the suffix
list[i..]; the prefix before i is final and never read again.  fuel is the
number of remaining loop iterations (list length at the call site).  Returns
(reordered suffix, final seekPosition, shortestTally increments). -/
def sstfGo : Nat → Int → List Int → List Int × Int × Nat
  | 0, pos, l => (l, pos, 0)
  | _ + 1, pos, [] => ([], pos, 0)
  | fuel + 1, pos, x :: xs =>
    match findBest pos (x :: xs) with
    | none =>
      -- bestIndex == -1: no swap, no head update (unreachable for a nonempty suffix)
      let r := sstfGo fuel pos xs
      (x :: r.1, r.2.1, r.2.2)
    | some (j, v, _) =>
      -- if (bestIndex != i) swap list[i] and list[bestIndex]
      let rest := if j = 0 then xs else xs.set (j - 1) x
      -- if (seekPosition != nextPosition) { seekPosition = nextPosition; shortestTally++; }
      let pos' := if v ≠ pos then v else pos
      let inc : Nat := if v ≠ pos then 1 else 0
      let r := sstfGo fuel pos' rest
      ((if j = 0 then x else v) :: r.1, r.2.1, r.2.2 + inc)

/-- shortestSeekFirst (main.c): returns (reordered list, final seekPosition
= new shortestStart, shortestTally increments). -/
def shortestSeekFirst (pos : Int) (l : List Int) : List Int × Int × Nat :=
  sstfGo l.length pos l

/-! ## elevatorAlgorithm -/

/-- lower < x with lower = none modelling INT_MIN. -/
def aboveLB (lower : Option Int) (x : Int) : Bool :=
  match lower with
  | none => true
  | some lb => decide (lb < x)

/-- x < upper with upper = none modelling INT_MAX. -/
def belowUB (x : Int) (upper : Option Int) : Bool :=
  match upper with
  | none => true
  | some ub => decide (x < ub)

/-- The evalIndex loop of elevatorAlgorithm (main.c) on the suffix
list[index..]: whenever lower < list[evalIndex] < upper, take that element as
the new seekPosition / nextIndex and narrow the bound on the sweep side.
Arguments: direction, current bounds, current seekPosition, best offset so far
(nextIndex - index), offset of the next element (evalIndex - index), and the
remaining elements.  Returns (final seekPosition, offset of nextIndex). -/
def elevScan (up : Bool) (lower upper : Option Int) (pos : Int) (best k : Nat) :
    List Int → Int × Nat
  | [] => (pos, best)
  | x :: xs =>
    if aboveLB lower x && belowUB x upper then
      if up then elevScan up lower (some x) x k (k + 1) xs
      else elevScan up (some x) upper x k (k + 1) xs
    else elevScan up lower upper pos best (k + 1) xs

/-- One run of the index loop of elevatorAlgorithm (main.c), acting on the
suffix list[index..] (the prefix below index is final for this run).  fuel is
the number of remaining indices.  Returns (processed part, unprocessed
leftover — empty whenever fuel covers the suffix, final seekPosition). -/
def elevRunGo (up : Bool) : Nat → Int → List Int → List Int × List Int × Int
  | 0, pos, todo => ([], todo, pos)
  | _ + 1, pos, [] => ([], [], pos)
  | fuel + 1, pos, x :: xs =>
    let s := elevScan up (if up then some pos else none) (if up then none else some pos)
      pos 0 0 (x :: xs)
    let pos' := s.1
    let j := s.2
    if j = 0 then
      -- nextIndex == index: no swap (covers both a no-match scan and a self-match)
      let r := elevRunGo up fuel pos' xs
      (x :: r.1, r.2.1, r.2.2)
    else
      -- list[index] = seekPosition; list[nextIndex] = position
      let r := elevRunGo up fuel pos' (xs.set (j - 1) x)
      (pos' :: r.1, r.2.1, r.2.2)

/-- elevatorAlgorithm (main.c), reordering phase: two runs of the index loop
(run = 2, 1) with the direction flipped in between.  The index variable
persists across the two runs, so the second run continues on the leftover
suffix of the first. -/
def elevatorAlgorithm (start : Int) (l : List Int) : List Int :=
  let r1 := elevRunGo true l.length start l
  let r2 := elevRunGo false r1.2.1.length r1.2.2 r1.2.1
  r1.1 ++ (r2.1 ++ r2.2.1)

/-- The state update performed after the reordering in elevatorAlgorithm
(main.c): walk the reordered list, counting effective seeks, and set
elevatorStart to the final position.  Returns (reordered list, new
elevatorStart, elevatorTally increments). -/
def elevatorAlgorithmFull (start : Int) (l : List Int) : List Int × Int × Nat :=
  let out := elevatorAlgorithm start l
  (out, walkTally start out)

/-- The first run of the elevator index loop on its own (one ascending pass
over every index). -/
def elevatorOnePass (start : Int) (l : List Int) : List Int :=
  (elevRunGo true l.length start l).1

/-! ## Configuration: getenv("D_POS_INIT") and atoi -/

/-- C isspace on the default locale, as skipped by atoi. -/
def isSpaceC (c : Char) : Bool :=
  c = ' ' || c = '\t' || c = '\n' || c = '\x0b' || c = '\x0c' || c = '\r'

/-- Decimal digit value of a character, if any. -/
def digitValC (c : Char) : Option Nat :=
  if '0' ≤ c ∧ c ≤ '9' then some (c.toNat - '0'.toNat) else none

/-- The digit-consuming loop of atoi (overflow does not occur on the
program's domain). -/
def atoiDigits : List Char → Nat → Nat
  | [], acc => acc
  | c :: cs, acc =>
    match digitValC c with
    | some d => atoiDigits cs (acc * 10 + d)
    | none => acc

/-- atoi after whitespace skipping: optional sign, then digits; a string with
no leading digits yields 0. -/
def atoiSigned : List Char → Int
  | [] => 0
  | c :: cs =>
    if c = '-' then -((atoiDigits cs 0 : Nat) : Int)
    else if c = '+' then ((atoiDigits cs 0 : Nat) : Int)
    else ((atoiDigits (c :: cs) 0 : Nat) : Int)

/-- C atoi: skip whitespace, optional sign, consume digits; 0 when no digits
are present. -/
def atoi (s : List Char) : Int := atoiSigned (s.dropWhile isSpaceC)

/-- The starting-position setup of process() (main.c): the globals are
initialised to D_POS_INIT; when getenv("D_POS_INIT") is non-null, all three
per-policy start positions are set to atoi of its value, unconditionally. -/
def initialPosition : Option (List Char) → Int
  | none => D_POS_INIT
  | some s => atoi s

/-! ## Specification-side definitions (for refinement comparisons only) -/

/-- SSTF as the specification words it: from the remaining suffix take the
request with the smallest absolute distance to the head, the lowest index
winning ties; swap it into the next output slot and advance the head to it.
Selection is phrased independently of the code, through the minimum of the
distance list and List.findIdx. -/
def sstfSpecGo : Nat → Int → List Int → List Int
  | 0, _, l => l
  | _ + 1, _, [] => []
  | fuel + 1, pos, x :: xs =>
    let m := (xs.map (fun y => |y - pos|)).foldl min (abs (x - pos))
    let j := (x :: xs).findIdx (fun y => |y - pos| == m)
    let v := (x :: xs).getD j 0
    let rest := if j = 0 then xs else xs.set (j - 1) x
    v :: sstfSpecGo fuel v rest

/-- SSTF selection/placement as specified. -/
def shortestSeekFirstSpec (pos : Int) (l : List Int) : List Int :=
  sstfSpecGo l.length pos l

/-- Modelled from the spec (SCAN contract): among the not-yet-placed requests
in the direction-consistent range of the head, the closest one in that
direction. -/
def specSelect (up : Bool) (pos : Int) (remaining : List Int) : Option Int :=
  let candidates :=
    remaining.filter (fun x => if up then decide (pos < x) else decide (x < pos))
  match candidates with
  | [] => none
  | c :: cs => some (cs.foldl (fun b x => if up then min b x else max b x) c)

/-- Modelled from the spec (SCAN contract): one directional pass — service
direction-consistent requests, each closest-first (hence strictly monotone in
the sweep direction), until none qualifies; the requests the pass cannot
reach stay behind in arrival order.  Returns (serviced in order, left
behind, final head position). -/
def specPassGo : Nat → Bool → Int → List Int → List Int × List Int × Int
  | 0, _, pos, remaining => ([], remaining, pos)
  | fuel + 1, up, pos, remaining =>
    match specSelect up pos remaining with
    | none => ([], remaining, pos)
    | some v =>
      let r := specPassGo fuel up v (remaining.erase v)
      (v :: r.1, r.2.1, r.2.2)

/-- Modelled from the spec (section 4.3): exactly two directional passes, one
up then one down, the second pass covering what the first did not finalize;
anything unreachable in both sweeps stays in arrival order. -/
def elevatorSpecTwoPass (start : Int) (l : List Int) : List Int :=
  let p1 := specPassGo l.length true start l
  let p2 := specPassGo p1.2.1.length false p1.2.2 p1.2.1
  p1.1 ++ (p2.1 ++ p2.2.1)

/-- The requests run in a single monotonic direction matching the head's path
from the start (never step back towards the start side): nondecreasing or
nonincreasing from the starting position onward. -/
def chainDirB (le : Bool) : Int → List Int → Bool
  | _, [] => true
  | p, x :: xs =>
    (if le then decide (p ≤ x) else decide (x ≤ p)) && chainDirB le x xs

/-- "already in a single monotonic direction matching the head's path". -/
def monotoneFromB (p : Int) (l : List Int) : Bool :=
  chainDirB true p l || chainDirB false p l

/-! ## Chunked processing: process / processInChunks / processChunk -/

/-- The per-policy mutable globals of main.c (start positions and effective
seek tallies). -/
structure SimState where
  firstComeStart : Int
  firstComeTally : Nat
  shortestStart : Int
  shortestTally : Nat
  elevatorStart : Int
  elevatorTally : Nat

/-- The global state at program start, after process() applied the
environment override (all six globals initialised; the three start positions
come from D_POS_INIT or its environment override). -/
def initState (env : Option (List Char)) : SimState :=
  { firstComeStart := initialPosition env, firstComeTally := 0,
    shortestStart := initialPosition env, shortestTally := 0,
    elevatorStart := initialPosition env, elevatorTally := 0 }

/-- What printRunStats reports for one algorithm on one chunk: the starting
position (currentStart), the total distance, and the serviced order. -/
structure RunReport where
  start : Int
  distance : Int
  order : List Int

/-- The per-chunk output of processChunk: one RunReport per policy. -/
structure ChunkReport where
  fcfs : RunReport
  sstf : RunReport
  elev : RunReport

/-- processChunk (main.c): run the three algorithms in sequence on the same
in-memory chunk — FCFS reads it, SSTF reorders it in place, and the elevator
algorithm then runs on SSTF's output — updating each policy's start/tally
globals and reporting each run's distance over the order it produced. -/
def processChunk (st : SimState) (chunk : List Int) : SimState × ChunkReport :=
  let f := firstComeFirstServed st.firstComeStart chunk
  let s := shortestSeekFirst st.shortestStart f.1
  let e := elevatorAlgorithmFull st.elevatorStart s.1
  ({ firstComeStart := f.2.1, firstComeTally := st.firstComeTally + f.2.2,
     shortestStart := s.2.1, shortestTally := st.shortestTally + s.2.2,
     elevatorStart := e.2.1, elevatorTally := st.elevatorTally + e.2.2 },
   { fcfs := { start := st.firstComeStart,
               distance := totalDistance st.firstComeStart f.1, order := f.1 },
     sstf := { start := st.shortestStart,
               distance := totalDistance st.shortestStart s.1, order := s.1 },
     elev := { start := st.elevatorStart,
               distance := totalDistance st.elevatorStart e.1, order := e.1 } })

/-- The prefill loop of processInChunks: buffer[i] = seeks.list[i], for the
given number of iterations (the loop bound min(100, remaining) is
loop-invariant). -/
def prefillGo (seeks : List Int) : Nat → List Int → Nat → List Int
  | 0, buffer, _ => buffer
  | n + 1, buffer, i => prefillGo seeks n (buffer.set i (seeks.getD i 0)) (i + 1)

/-- The shift loop of processInChunks: buffer[k - chunkSize] = buffer[k],
k running from chunkSize for the given number of iterations (bound
min(100, remaining), loop-invariant). -/
def shiftGo (cs : Nat) : Nat → List Int → Nat → List Int
  | 0, buffer, _ => buffer
  | n + 1, buffer, k => shiftGo cs n (buffer.set (k - cs) (buffer.getD k 0)) (k + 1)

/-- The refill loop of processInChunks: buffer[i] = seeks.list[seekIndex++],
for the given number of iterations (bound min(100, updated remaining),
loop-invariant).  Returns the buffer and the advanced seekIndex. -/
def refillGo (seeks : List Int) : Nat → List Int → Nat → Nat → List Int × Nat
  | 0, buffer, _, si => (buffer, si)
  | n + 1, buffer, i, si => refillGo seeks n (buffer.set i (seeks.getD si 0)) (i + 1) (si + 1)

/-- The while loop of processInChunks (main.c).  Each iteration: take the
next chunk of min(20, remaining) entries from the front of the buffer,
process it (the algorithms reorder those entries in place, which is written
back), shift the rest of the 100-entry window down, and refill the tail of
the window from the input.  fuel bounds the number of iterations; remaining
strictly decreases, so fuel = remaining suffices. -/
def chunkLoop (seeks : List Int) :
    Nat → List Int → Nat → Nat → SimState → SimState × List ChunkReport
  | 0, _, _, _, st => (st, [])
  | fuel + 1, buffer, remaining, seekIndex, st =>
    if remaining = 0 then (st, [])
    else
      let chunkSize := min 20 remaining
      let chunk := buffer.take chunkSize
      let pr := processChunk st chunk
      -- the in-place reordering of the processed chunk is still in the buffer
      let bufferM := pr.2.elev.order ++ buffer.drop chunkSize
      let bufferS := shiftGo chunkSize (min 100 remaining - chunkSize) bufferM chunkSize
      let remStep := remaining - chunkSize
      let rf := refillGo seeks (min 100 remStep - (min 100 remaining - chunkSize)) bufferS
        (min 100 remaining - chunkSize) seekIndex
      let rest := chunkLoop seeks fuel rf.1 remStep rf.2 pr.1
      (rest.1, pr.2 :: rest.2)

/-- processInChunks (main.c): a 100-int window buffer is prefilled from the
input (its other entries are never read before written; their unspecified
initial contents are modelled as 0), then the chunk loop runs until no
requests remain. -/
def processInChunks (seeks : List Int) (st : SimState) : SimState × List ChunkReport :=
  let n := seeks.length
  let buffer := prefillGo seeks (min 100 n) (List.replicate 100 0) 0
  chunkLoop seeks n buffer n (min 100 n) st

/-- Specification-side chunking: the input split into consecutive runs of
min(20, remaining) requests, in arrival order. -/
def chunksOf20 : Nat → List Int → List (List Int)
  | 0, _ => []
  | _ + 1, [] => []
  | fuel + 1, x :: xs => ((x :: xs).take 20) :: chunksOf20 fuel ((x :: xs).drop 20)

/-- The chunking of a request list. -/
def chunks20 (l : List Int) : List (List Int) := chunksOf20 l.length l

/-- Reference chunk processor: fold processChunk over a ready-made chunk
list, threading the per-policy state and collecting the reports. -/
def processAll (st : SimState) : List (List Int) → SimState × List ChunkReport
  | [] => (st, [])
  | c :: cs =>
    let p := processChunk st c
    let r := processAll p.1 cs
    (r.1, p.2 :: r.2)

/-! ## Generic helpers -/

theorem ite_ne_self (v pos : Int) : (if v ≠ pos then v else pos) = v := by
  by_cases h : v = pos <;> simp [h]

theorem ite_eq_flip (v pos : Int) : (if v = pos then pos else v) = v := by
  by_cases h : v = pos <;> simp [h]

theorem foldl_min_le_start : ∀ (l : List Int) (a : Int), l.foldl min a ≤ a := by
  intro l
  induction l with
  | nil => intro a; exact le_refl a
  | cons x xs ih => intro a; exact le_trans (ih (min a x)) (min_le_left a x)

theorem foldl_min_le_mem : ∀ (l : List Int) (a x : Int), x ∈ l → l.foldl min a ≤ x := by
  intro l
  induction l with
  | nil => intro a x hx; simp at hx
  | cons y ys ih =>
    intro a x hx
    rcases List.mem_cons.mp hx with h | h
    · subst h; exact le_trans (foldl_min_le_start ys (min a x)) (min_le_right a x)
    · exact ih (min a y) x h

theorem foldl_max_ge_start : ∀ (l : List Int) (a : Int), a ≤ l.foldl max a := by
  intro l
  induction l with
  | nil => intro a; exact le_refl a
  | cons x xs ih => intro a; exact le_trans (le_max_left a x) (ih (max a x))

theorem foldl_max_ge_mem : ∀ (l : List Int) (a x : Int), x ∈ l → x ≤ l.foldl max a := by
  intro l
  induction l with
  | nil => intro a x hx; simp at hx
  | cons y ys ih =>
    intro a x hx
    rcases List.mem_cons.mp hx with h | h
    · subst h; exact le_trans (le_max_right a x) (foldl_max_ge_start ys (max a x))
    · exact ih (max a y) x h

theorem foldl_max_choice : ∀ (l : List Int) (a : Int), l.foldl max a = a ∨ l.foldl max a ∈ l := by
  intro l
  induction l with
  | nil => intro a; left; rfl
  | cons x xs ih =>
    intro a
    rw [List.foldl_cons]
    rcases ih (max a x) with h | h
    · rw [h]
      rcases le_total a x with h2 | h2
      · right; rw [max_eq_right h2]; exact List.mem_cons_self x xs
      · left; exact max_eq_left h2
    · right; exact List.mem_cons_of_mem x h

theorem foldl_max_perm {l₁ l₂ : List Int} (h : l₁.Perm l₂) :
    ∀ a : Int, l₁.foldl max a = l₂.foldl max a := by
  induction h with
  | nil => intro a; rfl
  | cons x _ ih => intro a; rw [List.foldl_cons, List.foldl_cons, ih]
  | swap x y l => intro a; rw [List.foldl_cons, List.foldl_cons, List.foldl_cons,
      List.foldl_cons, Max.right_comm]
  | trans _ _ ih₁ ih₂ => intro a; rw [ih₁, ih₂]

/-- Swapping the head into position k of the tail (the in-place swap of the
schedulers, seen from the current suffix) is a permutation. -/
theorem cons_set_perm (x : Int) : ∀ (xs : List Int) (k : Nat), k < xs.length →
    (x :: xs).Perm (xs.getD k 0 :: xs.set k x) := by
  intro xs
  induction xs with
  | nil => intro k hk; simp at hk
  | cons y t ih =>
    intro k hk
    cases k with
    | zero => simpa using List.Perm.swap y x t
    | succ k =>
      have hk' : k < t.length := by simpa using hk
      simp only [List.getD_cons_succ, List.set_cons_succ]
      calc x :: y :: t
          ~ y :: x :: t := List.Perm.swap y x t
        _ ~ y :: t.getD k 0 :: t.set k x := List.Perm.cons y (ih k hk')
        _ ~ t.getD k 0 :: y :: t.set k x := List.Perm.swap (t.getD k 0) y (t.set k x)

/-! ## Characterization of the SSTF inner scan -/

/-- Minimal distance over a suffix, folded from a current best distance. -/
def minDist (head bd : Int) (xs : List Int) : Int :=
  (xs.map fun y => abs (y - head)).foldl min bd

/-- First index whose distance to the head equals m. -/
def firstMinIdx (head m : Int) (xs : List Int) : Nat :=
  xs.findIdx fun y => abs (y - head) == m

theorem minDist_cons (head bd x : Int) (xs : List Int) :
    minDist head bd (x :: xs) = minDist head (min bd (abs (x - head))) xs := by
  simp [minDist]

theorem minDist_le (head bd : Int) (xs : List Int) : minDist head bd xs ≤ bd :=
  foldl_min_le_start _ _

/-- The strict-improvement scan of shortestSeekFirst computes the minimal
distance over the suffix and keeps the first index attaining it. -/
theorem findBestGo_some (head : Int) :
    ∀ (xs : List Int) (k bk : Nat) (bv : Int),
      findBestGo head xs k (some (bk, bv, abs (bv - head))) =
        (if minDist head (abs (bv - head)) xs = abs (bv - head) then
          some (bk, bv, abs (bv - head))
        else
          some (k + firstMinIdx head (minDist head (abs (bv - head)) xs) xs,
                xs.getD (firstMinIdx head (minDist head (abs (bv - head)) xs) xs) 0,
                minDist head (abs (bv - head)) xs)) := by
  intro xs
  induction xs with
  | nil =>
    intro k bk bv
    simp [findBestGo, minDist]
  | cons x xs ih =>
    intro k bk bv
    by_cases hd : abs (x - head) < abs (bv - head)
    · have hstep : findBestGo head (x :: xs) k (some (bk, bv, abs (bv - head))) =
          findBestGo head xs (k + 1) (some (k, x, abs (x - head))) := by
        simp [findBestGo, hd]
      rw [hstep, ih (k + 1) k x, minDist_cons, min_eq_right (le_of_lt hd)]
      by_cases hM : minDist head (abs (x - head)) xs = abs (x - head)
      · -- the head element x is the unique improvement: first minimum at offset 0
        rw [if_pos hM, hM]
        have hne : ¬ abs (x - head) = abs (bv - head) := ne_of_lt hd
        rw [if_neg hne]
        have hpx : (abs (x - head) == abs (x - head)) = true := beq_self_eq_true _
        simp [firstMinIdx, List.findIdx_cons, hpx]
      · -- a strictly better element sits further on
        rw [if_neg hM]
        have hlt : minDist head (abs (x - head)) xs < abs (x - head) :=
          lt_of_le_of_ne (minDist_le _ _ _) hM
        have hne : ¬ minDist head (abs (x - head)) xs = abs (bv - head) :=
          ne_of_lt (lt_trans hlt hd)
        rw [if_neg hne]
        have hpx : (abs (x - head) == minDist head (abs (x - head)) xs) = false := by
          rw [beq_eq_false_iff_ne]
          exact (ne_of_lt hlt).symm
        simp only [firstMinIdx, List.findIdx_cons, hpx, cond_false, List.getD_cons_succ]
        have harith : k + 1 + List.findIdx
            (fun y => abs (y - head) == minDist head (abs (x - head)) xs) xs =
            k + (List.findIdx
              (fun y => abs (y - head) == minDist head (abs (x - head)) xs) xs + 1) := by
          omega
        rw [harith]
    · have hstep : findBestGo head (x :: xs) k (some (bk, bv, abs (bv - head))) =
          findBestGo head xs (k + 1) (some (bk, bv, abs (bv - head))) := by
        simp [findBestGo, hd]
      rw [hstep, ih (k + 1) bk bv, minDist_cons,
        min_eq_left (le_of_not_lt hd)]
      by_cases hM : minDist head (abs (bv - head)) xs = abs (bv - head)
      · rw [if_pos hM, if_pos hM]
      · rw [if_neg hM, if_neg hM]
        have hlt : minDist head (abs (bv - head)) xs < abs (bv - head) :=
          lt_of_le_of_ne (minDist_le _ _ _) hM
        have hpx : (abs (x - head) == minDist head (abs (bv - head)) xs) = false := by
          rw [beq_eq_false_iff_ne]
          have hxlt : minDist head (abs (bv - head)) xs < abs (x - head) :=
            lt_of_lt_of_le hlt (le_of_not_lt hd)
          exact (ne_of_lt hxlt).symm
        simp only [firstMinIdx, List.findIdx_cons, hpx, cond_false, List.getD_cons_succ]
        have harith : k + 1 + List.findIdx
            (fun y => abs (y - head) == minDist head (abs (bv - head)) xs) xs =
            k + (List.findIdx
              (fun y => abs (y - head) == minDist head (abs (bv - head)) xs) xs + 1) := by
          omega
        rw [harith]

/-- The reordering performed by shortestSeekFirst coincides step by step with
the specification's lowest-index-among-minima selection. -/
theorem sstfGo_fst_eq : ∀ (fuel : Nat) (pos : Int) (l : List Int),
    (sstfGo fuel pos l).1 = sstfSpecGo fuel pos l := by
  intro fuel
  induction fuel with
  | zero => intro pos l; rfl
  | succ fuel ih =>
    intro pos l
    cases l with
    | nil => rfl
    | cons x xs =>
      have hfb : findBest pos (x :: xs) =
          (if minDist pos (abs (x - pos)) xs = abs (x - pos) then
            some (0, x, abs (x - pos))
          else
            some (1 + firstMinIdx pos (minDist pos (abs (x - pos)) xs) xs,
                  xs.getD (firstMinIdx pos (minDist pos (abs (x - pos)) xs) xs) 0,
                  minDist pos (abs (x - pos)) xs)) := by
        have h1 : findBest pos (x :: xs) =
            findBestGo pos xs 1 (some (0, x, abs (x - pos))) := by
          simp [findBest, findBestGo]
        rw [h1, findBestGo_some pos xs 1 0 x]
      have hspec : ((xs.map fun y => |y - pos|).foldl min (abs (x - pos))) =
          minDist pos (abs (x - pos)) xs := rfl
      by_cases hM : minDist pos (abs (x - pos)) xs = abs (x - pos)
      · rw [if_pos hM] at hfb
        have hpx : (abs (x - pos) == minDist pos (abs (x - pos)) xs) = true := by
          rw [hM]; exact beq_self_eq_true _
        have hL : (sstfGo (fuel + 1) pos (x :: xs)).1 = x :: (sstfGo fuel x xs).1 := by
          simp [sstfGo, hfb, ite_ne_self, ite_eq_flip]
        have hR : sstfSpecGo (fuel + 1) pos (x :: xs) = x :: sstfSpecGo fuel x xs := by
          simp [sstfSpecGo, hspec, List.findIdx_cons, hpx, cond_true]
        rw [hL, hR, ih x xs]
      · rw [if_neg hM] at hfb
        have hlt : minDist pos (abs (x - pos)) xs < abs (x - pos) :=
          lt_of_le_of_ne (minDist_le _ _ _) hM
        have hpx : (abs (x - pos) == minDist pos (abs (x - pos)) xs) = false := by
          rw [beq_eq_false_iff_ne]
          exact (ne_of_lt hlt).symm
        set f := firstMinIdx pos (minDist pos (abs (x - pos)) xs) xs with hf
        set v := xs.getD f 0 with hv
        have hj : ¬ (1 + f = 0) := by omega
        have hL : (sstfGo (fuel + 1) pos (x :: xs)).1 =
            v :: (sstfGo fuel v (xs.set (1 + f - 1) x)).1 := by
          simp [sstfGo, hfb, ite_ne_self, ite_eq_flip, hj]
        have hR : sstfSpecGo (fuel + 1) pos (x :: xs) =
            v :: sstfSpecGo fuel v (xs.set (f + 1 - 1) x) := by
          have hfind : (x :: xs).findIdx
              (fun y => |y - pos| == minDist pos (abs (x - pos)) xs) = f + 1 := by
            simp [List.findIdx_cons, hpx, firstMinIdx, hf]
          simp only [sstfSpecGo, hspec, hfind]
          have hj2 : ¬ (f + 1 = 0) := by omega
          rw [if_neg hj2]
          simp only [List.getD_cons_succ, ← hv]
        rw [hL, hR]
        have harith : 1 + f - 1 = f + 1 - 1 := by omega
        rw [harith, ih v (xs.set (f + 1 - 1) x)]

/-- C1.  For every request sequence and every starting head position, the
SSTF scheduler repeatedly selects from the remaining unscheduled suffix the
request of smallest absolute distance to the current head (the lowest index
winning ties), swaps it into the next output slot, and advances the head to
it: the reordering of shortestSeekFirst equals the specification-level
selection process verbatim. -/
theorem C1_shortestSeekFirst_matches_spec (pos : Int) (l : List Int) :
    (shortestSeekFirst pos l).1 = shortestSeekFirstSpec pos l :=
  sstfGo_fst_eq l.length pos l

/-! ## Invariants of the scans and loops -/

/-- Whatever the elevator scan returns is either its starting state or an
element of the scanned suffix together with its offset. -/
theorem elevScan_inv : ∀ (rest : List Int) (up : Bool) (lb ub : Option Int)
    (pos : Int) (best k : Nat) (p : Int) (j : Nat),
    elevScan up lb ub pos best k rest = (p, j) →
    (p = pos ∧ j = best) ∨ ∃ i, i < rest.length ∧ rest.getD i 0 = p ∧ j = k + i := by
  intro rest
  induction rest with
  | nil =>
    intro up lb ub pos best k p j h
    simp only [elevScan] at h
    injection h with h1 h2
    exact Or.inl ⟨h1.symm, h2.symm⟩
  | cons x xs ih =>
    intro up lb ub pos best k p j h
    simp only [elevScan] at h
    by_cases hc : (aboveLB lb x && belowUB x ub) = true
    · rw [if_pos hc] at h
      cases up with
      | false =>
        simp only [Bool.false_eq_true, if_false] at h
        rcases ih false (some x) ub x k (k + 1) p j h with ⟨rfl, rfl⟩ | ⟨i, hi, hg, rfl⟩
        · exact Or.inr ⟨0, by simp, by simp, by omega⟩
        · exact Or.inr ⟨i + 1, by simpa using hi, by simpa using hg, by omega⟩
      | true =>
        simp only [if_true] at h
        rcases ih true lb (some x) x k (k + 1) p j h with ⟨rfl, rfl⟩ | ⟨i, hi, hg, rfl⟩
        · exact Or.inr ⟨0, by simp, by simp, by omega⟩
        · exact Or.inr ⟨i + 1, by simpa using hi, by simpa using hg, by omega⟩
    · rw [if_neg hc] at h
      rcases ih up lb ub pos best (k + 1) p j h with hl | ⟨i, hi, hg, rfl⟩
      · exact Or.inl hl
      · exact Or.inr ⟨i + 1, by simpa using hi, by simpa using hg, by omega⟩

/-- With enough fuel, one elevator run consumes the whole suffix. -/
theorem elevRunGo_leftover : ∀ (fuel : Nat) (up : Bool) (pos : Int) (todo : List Int),
    todo.length ≤ fuel → (elevRunGo up fuel pos todo).2.1 = [] := by
  intro fuel
  induction fuel with
  | zero =>
    intro up pos todo h
    have hnil : todo = [] := List.eq_nil_of_length_eq_zero (Nat.le_zero.mp h)
    subst hnil; rfl
  | succ fuel ih =>
    intro up pos todo h
    cases todo with
    | nil => rfl
    | cons x xs =>
      have hx : xs.length ≤ fuel := by
        simp only [List.length_cons] at h; omega
      rcases hs : elevScan up (if up then some pos else none) (if up then none else some pos)
          pos 0 0 (x :: xs) with ⟨p, j⟩
      by_cases hz : j = 0
      · have hred : (elevRunGo up (fuel + 1) pos (x :: xs)).2.1 =
            (elevRunGo up fuel p xs).2.1 := by
          simp [elevRunGo, hs, hz]
        rw [hred]
        exact ih up p xs hx
      · have hred : (elevRunGo up (fuel + 1) pos (x :: xs)).2.1 =
            (elevRunGo up fuel p (xs.set (j - 1) x)).2.1 := by
          simp [elevRunGo, hs, hz]
        rw [hred]
        exact ih up p _ (by simpa [List.length_set] using hx)

/-- The second run of elevatorAlgorithm starts at the persisted index, i.e.
on the empty leftover of the first run, so the result is exactly one
ascending pass. -/
theorem elevatorAlgorithm_eq_onePass (start : Int) (l : List Int) :
    elevatorAlgorithm start l = elevatorOnePass start l := by
  have h := elevRunGo_leftover l.length true start l (le_refl _)
  simp [elevatorAlgorithm, elevatorOnePass, h, elevRunGo]

/-- The inner SSTF scan selects an element of the suffix (with its offset),
when it returns something. -/
theorem findBestGo_inv : ∀ (l : List Int) (head : Int) (k : Nat)
    (acc : Option (Nat × Int × Int)) (j : Nat) (v d : Int),
    findBestGo head l k acc = some (j, v, d) →
    acc = some (j, v, d) ∨ ∃ i, i < l.length ∧ l.getD i 0 = v ∧ j = k + i := by
  intro l
  induction l with
  | nil =>
    intro head k acc j v d h
    exact Or.inl h
  | cons x xs ih =>
    intro head k acc j v d h
    cases acc with
    | none =>
      have hred : findBestGo head (x :: xs) k none =
          findBestGo head xs (k + 1) (some (k, x, |x - head|)) := rfl
      rw [hred] at h
      rcases ih head (k + 1) (some (k, x, |x - head|)) j v d h with h1 | ⟨i, hi, hg, rfl⟩
      · simp only [Option.some.injEq, Prod.mk.injEq] at h1
        obtain ⟨rfl, rfl, rfl⟩ := h1
        exact Or.inr ⟨0, by simp, by simp, by omega⟩
      · exact Or.inr ⟨i + 1, by simpa using hi, by simpa using hg, by omega⟩
    | some best =>
      obtain ⟨bk, bv, bd⟩ := best
      have hred : findBestGo head (x :: xs) k (some (bk, bv, bd)) =
          if |x - head| < bd then findBestGo head xs (k + 1) (some (k, x, |x - head|))
          else findBestGo head xs (k + 1) (some (bk, bv, bd)) := rfl
      rw [hred] at h
      by_cases hd : |x - head| < bd
      · rw [if_pos hd] at h
        rcases ih head (k + 1) (some (k, x, |x - head|)) j v d h with h1 | ⟨i, hi, hg, rfl⟩
        · simp only [Option.some.injEq, Prod.mk.injEq] at h1
          obtain ⟨rfl, rfl, rfl⟩ := h1
          exact Or.inr ⟨0, by simp, by simp, by omega⟩
        · exact Or.inr ⟨i + 1, by simpa using hi, by simpa using hg, by omega⟩
      · rw [if_neg hd] at h
        rcases ih head (k + 1) (some (bk, bv, bd)) j v d h with h1 | ⟨i, hi, hg, rfl⟩
        · exact Or.inl h1
        · exact Or.inr ⟨i + 1, by simpa using hi, by simpa using hg, by omega⟩

/-! ## Permutation invariance (C3) -/

theorem sstfGo_perm : ∀ (fuel : Nat) (pos : Int) (l : List Int),
    ((sstfGo fuel pos l).1).Perm l := by
  intro fuel
  induction fuel with
  | zero => intro pos l; exact List.Perm.refl _
  | succ fuel ih =>
    intro pos l
    cases l with
    | nil => exact List.Perm.refl _
    | cons x xs =>
      rcases hfb : findBest pos (x :: xs) with _ | ⟨j, v, d⟩
      · have hL : (sstfGo (fuel + 1) pos (x :: xs)).1 = x :: (sstfGo fuel pos xs).1 := by
          simp [sstfGo, hfb]
        rw [hL]
        exact (ih pos xs).cons x
      · rcases findBestGo_inv (x :: xs) pos 0 none j v d hfb with h1 | ⟨i, hi, hg, hj⟩
        · exact absurd h1 (by simp)
        · by_cases hz : j = 0
          · have hL : (sstfGo (fuel + 1) pos (x :: xs)).1 =
                x :: (sstfGo fuel (if v ≠ pos then v else pos) xs).1 := by
              simp [sstfGo, hfb, hz]
            rw [hL]
            exact (ih _ xs).cons x
          · have hi' : j - 1 < xs.length := by
              simp only [List.length_cons] at hi; omega
            have hg' : xs.getD (j - 1) 0 = v := by
              have hj' : j = i := by omega
              subst hj'
              cases j with
              | zero => exact absurd rfl hz
              | succ jj => simpa using hg
            have hL : (sstfGo (fuel + 1) pos (x :: xs)).1 =
                v :: (sstfGo fuel (if v ≠ pos then v else pos) (xs.set (j - 1) x)).1 := by
              simp [sstfGo, hfb, hz]
            rw [hL]
            have hcs := cons_set_perm x xs (j - 1) hi'
            rw [hg'] at hcs
            exact ((ih _ _).cons v).trans hcs.symm

theorem elevRunGo_perm : ∀ (fuel : Nat) (up : Bool) (pos : Int) (todo : List Int),
    ((elevRunGo up fuel pos todo).1 ++ (elevRunGo up fuel pos todo).2.1).Perm todo := by
  intro fuel
  induction fuel with
  | zero => intro up pos todo; exact List.Perm.refl todo
  | succ fuel ih =>
    intro up pos todo
    cases todo with
    | nil => exact List.Perm.refl []
    | cons x xs =>
      rcases hs : elevScan up (if up then some pos else none) (if up then none else some pos)
          pos 0 0 (x :: xs) with ⟨p, j⟩
      by_cases hz : j = 0
      · have hL : (elevRunGo up (fuel + 1) pos (x :: xs)).1 = x :: (elevRunGo up fuel p xs).1 ∧
            (elevRunGo up (fuel + 1) pos (x :: xs)).2.1 = (elevRunGo up fuel p xs).2.1 := by
          constructor <;> simp [elevRunGo, hs, hz]
        rw [hL.1, hL.2, List.cons_append]
        exact (ih up p xs).cons x
      · rcases elevScan_inv (x :: xs) up _ _ pos 0 0 p j hs with ⟨rfl, rfl⟩ | ⟨i, hi, hg, hj⟩
        · exact absurd rfl hz
        · have hi' : j - 1 < xs.length := by
            simp only [List.length_cons] at hi; omega
          have hg' : xs.getD (j - 1) 0 = p := by
            have hj' : j = i := by omega
            subst hj'
            cases j with
            | zero => exact absurd rfl hz
            | succ jj => simpa using hg
          have hL : (elevRunGo up (fuel + 1) pos (x :: xs)).1 =
              p :: (elevRunGo up fuel p (xs.set (j - 1) x)).1 ∧
              (elevRunGo up (fuel + 1) pos (x :: xs)).2.1 =
                (elevRunGo up fuel p (xs.set (j - 1) x)).2.1 := by
            constructor <;> simp [elevRunGo, hs, hz]
          rw [hL.1, hL.2, List.cons_append]
          have hcs := cons_set_perm x xs (j - 1) hi'
          rw [hg'] at hcs
          exact ((ih up p _).cons p).trans hcs.symm

theorem elevatorAlgorithm_perm (start : Int) (l : List Int) :
    (elevatorAlgorithm start l).Perm l := by
  rw [elevatorAlgorithm_eq_onePass]
  have h := elevRunGo_perm l.length true start l
  rw [elevRunGo_leftover l.length true start l (le_refl _)] at h
  simpa [elevatorOnePass] using h

/-- C3.  All three schedulers only permute the request sequence: the multiset
of values (here: the list up to permutation) and the length are unchanged by
FCFS, SSTF and the elevator algorithm. -/
theorem C3_algorithms_permute (start : Int) (l : List Int) :
    ((firstComeFirstServed start l).1).Perm l ∧
    ((shortestSeekFirst start l).1).Perm l ∧
    (elevatorAlgorithm start l).Perm l ∧
    (firstComeFirstServed start l).1.length = l.length ∧
    (shortestSeekFirst start l).1.length = l.length ∧
    (elevatorAlgorithm start l).length = l.length := by
  refine ⟨List.Perm.refl l, sstfGo_perm l.length start l, elevatorAlgorithm_perm start l,
    rfl, ?_, ?_⟩
  · exact (sstfGo_perm l.length start l).length_eq
  · exact (elevatorAlgorithm_perm start l).length_eq

/-! ## C2: the elevator's two passes -/

/-- C2 counterexample.  On requests [100, 50, 60] with the head at 70, the
code leaves [100, 50, 60] (the down pass never runs, because the index
persists at the end of the list), while the specified two-pass sweep would
produce [100, 60, 50]: the program does not perform the described second,
downward pass. -/
theorem C2_twoPass_counterexample :
    elevatorAlgorithm 70 [100, 50, 60] ≠ elevatorSpecTwoPass 70 [100, 50, 60] := by
  decide

/-- C2 amended.  The elevator scheduler's outer loop does run twice with the
direction flipped, but the scan index persists across the runs; the first
(ascending) run consumes every index, so the second (descending) run covers
no indices and has no effect: the algorithm's result is exactly the single
ascending pass.  (Requests not serviced by that pass stay at the unserviced
indices, possibly displaced by swaps, rather than in arrival order.) -/
theorem C2_elevator_single_upward_pass (start : Int) (l : List Int) :
    elevatorAlgorithm start l = elevatorOnePass start l :=
  elevatorAlgorithm_eq_onePass start l

/-! ## C4: the distance formula -/

theorem totalDistance_eq_pairs (p : Int) (l : List Int) :
    totalDistance p l = ((l.zip (p :: l)).map fun q => |q.1 - q.2|).sum := by
  induction l generalizing p with
  | nil => rfl
  | cons x xs ih =>
    simp only [totalDistance, List.zip_cons_cons, List.map_cons, List.sum_cons, ih x]

theorem totalDistance_nonneg (p : Int) (l : List Int) : 0 ≤ totalDistance p l := by
  induction l generalizing p with
  | nil => exact le_refl 0
  | cons x xs ih => exact add_nonneg (abs_nonneg _) (ih x)

/-- C4.  The reported distance is the absolute difference of the first
request to the starting position plus the sum of absolute differences of
consecutive requests; it is never negative; and on the single request [500]
from position 0 all three algorithms report distance 500. -/
theorem C4_distance_formula :
    (∀ (p : Int) (l : List Int),
      totalDistance p l = ((l.zip (p :: l)).map fun q => |q.1 - q.2|).sum ∧
      0 ≤ totalDistance p l) ∧
    totalDistance 0 ((firstComeFirstServed 0 [500]).1) = 500 ∧
    totalDistance 0 ((shortestSeekFirst 0 [500]).1) = 500 ∧
    totalDistance 0 (elevatorAlgorithm 0 [500]) = 500 :=
  ⟨fun p l => ⟨totalDistance_eq_pairs p l, totalDistance_nonneg p l⟩,
    by decide, by decide, by decide⟩

/-! ## C5: elevator distance against FCFS distance -/

theorem foldl_min_choice : ∀ (l : List Int) (a : Int), l.foldl min a = a ∨ l.foldl min a ∈ l := by
  intro l
  induction l with
  | nil => intro a; left; rfl
  | cons x xs ih =>
    intro a
    rw [List.foldl_cons]
    rcases ih (min a x) with h | h
    · rw [h]
      rcases le_total a x with h2 | h2
      · left; exact min_eq_left h2
      · right; rw [min_eq_right h2]; exact List.mem_cons_self x xs
    · right; exact List.mem_cons_of_mem x h

/-- Running minimum with first-attaining index: the ascending elevator scan
once its first candidate is latched. -/
def runMin : List Int → Int → Nat → Nat → Int × Nat
  | [], v, b, _ => (v, b)
  | x :: xs, v, b, k => if x < v then runMin xs x k (k + 1) else runMin xs v b (k + 1)

theorem elevScan_up_eq_runMin (lb : Int) : ∀ (xs : List Int) (v : Int) (b k : Nat),
    (∀ y ∈ xs, lb < y) →
    elevScan true (some lb) (some v) v b k xs = runMin xs v b k := by
  intro xs
  induction xs with
  | nil => intro v b k _; rfl
  | cons x xs ih =>
    intro v b k h
    have hlx : lb < x := h x (List.mem_cons_self x xs)
    have hrest : ∀ y ∈ xs, lb < y := fun y hy => h y (List.mem_cons_of_mem x hy)
    by_cases hxv : x < v
    · have hred : elevScan true (some lb) (some v) v b k (x :: xs) =
          elevScan true (some lb) (some x) x k (k + 1) xs := by
        simp [elevScan, aboveLB, belowUB, hlx, hxv]
      rw [hred, ih x k (k + 1) hrest]
      simp [runMin, hxv]
    · have hred : elevScan true (some lb) (some v) v b k (x :: xs) =
          elevScan true (some lb) (some v) v b (k + 1) xs := by
        simp [elevScan, aboveLB, belowUB, hxv]
      rw [hred, ih v b (k + 1) hrest]
      simp [runMin, hxv]

theorem elevScan_up_entry (pos x : Int) (xs : List Int)
    (h : ∀ y ∈ x :: xs, pos < y) :
    elevScan true (some pos) none pos 0 0 (x :: xs) = runMin xs x 0 1 := by
  have hx : pos < x := h x (List.mem_cons_self x xs)
  have hred : elevScan true (some pos) none pos 0 0 (x :: xs) =
      elevScan true (some pos) (some x) x 0 1 xs := by
    simp [elevScan, aboveLB, belowUB, hx]
  rw [hred, elevScan_up_eq_runMin pos xs x 0 1 (fun y hy => h y (List.mem_cons_of_mem x hy))]

theorem runMin_fst : ∀ (xs : List Int) (v : Int) (b k : Nat),
    (runMin xs v b k).1 = xs.foldl min v := by
  intro xs
  induction xs with
  | nil => intro v b k; rfl
  | cons x xs ih =>
    intro v b k
    by_cases hxv : x < v
    · rw [List.foldl_cons, min_eq_right (le_of_lt hxv)]
      simpa [runMin, hxv] using ih x k (k + 1)
    · rw [List.foldl_cons, min_eq_left (le_of_not_lt hxv)]
      simpa [runMin, hxv] using ih v b (k + 1)

/-- On a duplicate-free suffix lying entirely above the head, the ascending
elevator pass services the requests in increasing order, travelling exactly
from the head to the largest request. -/
theorem elevUp_dist : ∀ (fuel : Nat) (pos : Int) (todo : List Int),
    todo.length ≤ fuel → todo.Nodup → (∀ y ∈ todo, pos < y) →
    totalDistance pos (elevRunGo true fuel pos todo).1 = todo.foldl max pos - pos := by
  intro fuel
  induction fuel with
  | zero =>
    intro pos todo hlen _ _
    have hnil : todo = [] := List.eq_nil_of_length_eq_zero (Nat.le_zero.mp hlen)
    subst hnil
    simp [totalDistance, elevRunGo]
  | succ fuel ih =>
    intro pos todo hlen hnd hab
    cases todo with
    | nil => simp [totalDistance, elevRunGo]
    | cons x xs =>
      have hlen' : xs.length ≤ fuel := by
        simp only [List.length_cons] at hlen; omega
      rcases hrm : runMin xs x 0 1 with ⟨m, j⟩
      have hscan : elevScan true (some pos) none pos 0 0 (x :: xs) = (m, j) :=
        (elevScan_up_entry pos x xs hab).trans hrm
      have hm : m = xs.foldl min x := by
        have := runMin_fst xs x 0 1
        rw [hrm] at this
        exact this
      have hmmem : m ∈ x :: xs := by
        rw [hm]
        rcases foldl_min_choice xs x with h | h
        · rw [h]; exact List.mem_cons_self x xs
        · exact List.mem_cons_of_mem x h
      have hmle : ∀ y ∈ x :: xs, m ≤ y := by
        intro y hy
        rcases List.mem_cons.mp hy with rfl | hy
        · rw [hm]; exact foldl_min_le_start xs y
        · rw [hm]; exact foldl_min_le_mem xs x y hy
      have hposm : pos < m := hab m hmmem
      have habs : |m - pos| = m - pos := abs_of_pos (sub_pos.mpr hposm)
      rcases elevScan_inv (x :: xs) true (some pos) none pos 0 0 m j hscan with
        ⟨hpm, _⟩ | ⟨i, hi, hg, hj⟩
      · exact absurd hpm.symm (ne_of_lt hposm)
      · by_cases hz : j = 0
        · -- the head element x itself is the minimum
          have hi0 : i = 0 := by omega
          have hxm : x = m := by
            subst hi0; simpa using hg
          subst hxm
          have hred : (elevRunGo true (fuel + 1) pos (x :: xs)).1 =
              x :: (elevRunGo true fuel x xs).1 := by
            simp [elevRunGo, hscan, hz]
          have hnd' : xs.Nodup := (List.nodup_cons.mp hnd).2
          have hxnot : x ∉ xs := (List.nodup_cons.mp hnd).1
          have hab' : ∀ y ∈ xs, x < y := by
            intro y hy
            have hle : x ≤ y := hmle y (List.mem_cons_of_mem x hy)
            have hne : y ≠ x := fun hcon => hxnot (hcon ▸ hy)
            exact lt_of_le_of_ne hle (Ne.symm hne)
          rw [hred]
          have hrec := ih x xs hlen' hnd' hab'
          have hfold : (x :: xs).foldl max pos = xs.foldl max x := by
            rw [List.foldl_cons, max_eq_right (le_of_lt hposm)]
          rw [totalDistance, hrec, hfold, habs]
          omega
        · -- the minimum sits at offset j ≥ 1 and is swapped to the front
          have hji : j = i := by omega
          subst hji
          have hi' : j - 1 < xs.length := by
            simp only [List.length_cons] at hi; omega
          have hg' : xs.getD (j - 1) 0 = m := by
            cases j with
            | zero => exact absurd rfl hz
            | succ jj => simpa using hg
          have hred : (elevRunGo true (fuel + 1) pos (x :: xs)).1 =
              m :: (elevRunGo true fuel m (xs.set (j - 1) x)).1 := by
            simp [elevRunGo, hscan, hz]
          have hperm : (x :: xs).Perm (m :: xs.set (j - 1) x) := by
            have hcs := cons_set_perm x xs (j - 1) hi'
            rwa [hg'] at hcs
          have hndm : (m :: xs.set (j - 1) x).Nodup := hperm.nodup_iff.mp hnd
          have hnd' : (xs.set (j - 1) x).Nodup := (List.nodup_cons.mp hndm).2
          have hmnot : m ∉ xs.set (j - 1) x := (List.nodup_cons.mp hndm).1
          have hab' : ∀ y ∈ xs.set (j - 1) x, m < y := by
            intro y hy
            have hymem : y ∈ x :: xs := hperm.mem_iff.mpr (List.mem_cons_of_mem m hy)
            have hle : m ≤ y := hmle y hymem
            have hne : y ≠ m := fun hcon => hmnot (hcon ▸ hy)
            exact lt_of_le_of_ne hle (Ne.symm hne)
          rw [hred]
          have hrec := ih m (xs.set (j - 1) x)
            (by simpa [List.length_set] using hlen') hnd' hab'
          have hfold : (x :: xs).foldl max pos = (xs.set (j - 1) x).foldl max m := by
            have h1 := foldl_max_perm hperm pos
            rw [h1, List.foldl_cons, max_eq_right (le_of_lt hposm)]
          rw [totalDistance, hrec, hfold, habs]
          omega

/-- Any visited position bounds the walked distance from below. -/
theorem reach_le_totalDistance : ∀ (l : List Int) (p x : Int),
    x ∈ l → |x - p| ≤ totalDistance p l := by
  intro l
  induction l with
  | nil => intro p x h; simp at h
  | cons y ys ih =>
    intro p x h
    rcases List.mem_cons.mp h with rfl | h
    · simp only [totalDistance]
      exact le_add_of_nonneg_right (totalDistance_nonneg x ys)
    · have h1 := ih y x h
      have h2 := abs_sub_le x y p
      simp only [totalDistance]
      linarith

/-- C5 counterexample.  [5, 3, 10] with the head at 7 is not monotone in the
head's direction, yet the elevator result [10, 3, 5] travels 12 while FCFS
travels 11: SCAN's reported distance exceeds FCFS's. -/
theorem C5_scan_not_le_fcfs_counterexample :
    monotoneFromB 7 [5, 3, 10] = false ∧
    totalDistance 7 [5, 3, 10] < totalDistance 7 (elevatorAlgorithm 7 [5, 3, 10]) := by
  decide

/-- C5 amended.  When the requests are pairwise distinct and all lie strictly
above the starting head position, the elevator algorithm services them in
increasing order and its reported distance is at most FCFS's distance on the
same input. -/
theorem C5_scan_le_fcfs_distinct_above (p : Int) (l : List Int)
    (hnd : l.Nodup) (hab : ∀ x ∈ l, p < x) :
    totalDistance p (elevatorAlgorithm p l) ≤ totalDistance p l := by
  rw [elevatorAlgorithm_eq_onePass]
  show totalDistance p (elevRunGo true l.length p l).1 ≤ totalDistance p l
  rw [elevUp_dist l.length p l (le_refl _) hnd hab]
  rcases foldl_max_choice l p with h | h
  · rw [h]
    simpa using totalDistance_nonneg p l
  · have h1 := reach_le_totalDistance l p (l.foldl max p) h
    have h2 : l.foldl max p - p ≤ |l.foldl max p - p| := le_abs_self _
    linarith

/-- C5 witness: the amended inequality at the concrete input p = 1,
l = [9, 5, 20] (distinct, all above the head). -/
theorem C5_scan_le_fcfs_witness :
    ([9, 5, 20] : List Int).Nodup ∧ (∀ x ∈ ([9, 5, 20] : List Int), (1 : Int) < x) ∧
    totalDistance 1 (elevatorAlgorithm 1 [9, 5, 20]) ≤ totalDistance 1 [9, 5, 20] :=
  ⟨by decide, by decide, C5_scan_le_fcfs_distinct_above 1 [9, 5, 20] (by decide) (by decide)⟩

/-! ## C6: the empty input and the statistics -/

/-- C6.  On the empty request sequence nothing crashes and every distance is
0, but printOverview divides by the request count without any zero guard: the
mean is 0 / 0.0 = NaN (modelled none), hence the variance — and with it the
standard deviation sqrt(NaN) — is NaN as well, not 0. -/
theorem C6_empty_input_eval :
    overviewMean [] = none ∧ overviewVariance [] = none ∧
    totalDistance D_POS_INIT ((firstComeFirstServed D_POS_INIT []).1) = 0 ∧
    totalDistance D_POS_INIT ((shortestSeekFirst D_POS_INIT []).1) = 0 ∧
    totalDistance D_POS_INIT (elevatorAlgorithm D_POS_INIT []) = 0 :=
  ⟨rfl, rfl, rfl, rfl, rfl⟩

/-! ## C7: ingestion filtering -/

/-- C7.  extractSeeks keeps exactly the in-bounds values, in arrival order,
and reports exactly the out-of-bounds values (each skipped, none fatal). -/
theorem C7_extractSeeks_filters (input : List Int) :
    (extractSeeks input).1 = input.filter inBounds ∧
    (extractSeeks input).2 = input.filter (fun x => ! inBounds x) := by
  induction input with
  | nil => exact ⟨rfl, rfl⟩
  | cons x xs ih =>
    by_cases h : inBounds x = true
    · simp [extractSeeks, List.filter_cons, h, ih.1, ih.2]
    · have h' : inBounds x = false := by
        cases hx : inBounds x
        · rfl
        · exact absurd hx h
      simp [extractSeeks, List.filter_cons, h', ih.1, ih.2]

/-! ## C8: the initial head position -/

/-- C8 counterexample.  With D_POS_INIT set to the invalid string "abc", the
start position becomes atoi("abc") = 0, not the default 32767: an invalid
setting does not fall back to the default. -/
theorem C8_invalid_env_counterexample :
    initialPosition (some ['a', 'b', 'c']) ≠ D_POS_INIT := by
  decide

/-- C8 amended.  The initial head position defaults to 32767 and only an
absent D_POS_INIT falls back to it; a present setting is used through atoi
unconditionally, so a numeric value overrides the default and an invalid
(non-numeric) value yields position 0. -/
theorem C8_initial_position_behavior :
    initialPosition none = D_POS_INIT ∧
    (∀ s : List Char, initialPosition (some s) = atoi s) ∧
    initialPosition (some ['3', '1', '0', '0', '0']) = 31000 ∧
    initialPosition (some [' ', '-', '7']) = -7 ∧
    initialPosition (some ['a', 'b', 'c']) = 0 :=
  ⟨rfl, fun _ => rfl, by decide, by decide, by decide⟩

/-! ## C9: FCFS is a no-op on the sequence -/

/-- C9.  firstComeFirstServed never reorders: the sequence after a run is the
arrival order, and running it twice yields the same sequence as running it
once. -/
theorem C9_fcfs_identity_idempotent (start1 start2 : Int) (l : List Int) :
    (firstComeFirstServed start1 l).1 = l ∧
    (firstComeFirstServed start2 ((firstComeFirstServed start1 l).1)).1 =
      (firstComeFirstServed start1 l).1 :=
  ⟨rfl, rfl⟩

/-! ## C10: the chunked processing loop -/

theorem getD_set_lt (l : List Int) (p q : Nat) (v : Int) (hq : q < l.length) :
    (l.set p v).getD q 0 = if p = q then v else l.getD q 0 := by
  rw [List.getD_eq_getElem?_getD, List.getElem?_set]
  by_cases h1 : p = q
  · subst h1
    rw [if_pos rfl, if_pos rfl, if_pos hq]
    rfl
  · rw [if_neg h1, if_neg h1, ← List.getD_eq_getElem?_getD]

theorem getD_take (l : List Int) (t q : Nat) (h : q < t) :
    (l.take t).getD q 0 = l.getD q 0 := by
  rw [List.getD_eq_getElem?_getD, List.getElem?_take, if_pos h, ← List.getD_eq_getElem?_getD]

theorem getD_drop (l : List Int) (t q : Nat) :
    (l.drop t).getD q 0 = l.getD (t + q) 0 := by
  rw [List.getD_eq_getElem?_getD, List.getElem?_drop, ← List.getD_eq_getElem?_getD]

theorem getD_append_ge (l1 l2 : List Int) (q : Nat) (h : l1.length ≤ q) :
    ((l1 ++ l2).getD q 0) = l2.getD (q - l1.length) 0 := by
  rw [List.getD_eq_getElem?_getD, List.getElem?_append, if_neg (by omega),
    ← List.getD_eq_getElem?_getD]

theorem list_eq_of_getD (l1 l2 : List Int) (hlen : l1.length = l2.length)
    (h : ∀ q, q < l1.length → l1.getD q 0 = l2.getD q 0) : l1 = l2 := by
  apply List.ext_getElem hlen
  intro q h1 h2
  have hq := h q h1
  rw [List.getD_eq_getElem?_getD, List.getD_eq_getElem?_getD,
    List.getElem?_eq_getElem h1, List.getElem?_eq_getElem h2,
    Option.getD_some, Option.getD_some] at hq
  exact hq

theorem prefillGo_length (seeks : List Int) : ∀ (n : Nat) (buffer : List Int) (i : Nat),
    (prefillGo seeks n buffer i).length = buffer.length := by
  intro n
  induction n with
  | zero => intro buffer i; rfl
  | succ n ih => intro buffer i; rw [prefillGo, ih, List.length_set]

theorem shiftGo_length (cs : Nat) : ∀ (n : Nat) (buffer : List Int) (k : Nat),
    (shiftGo cs n buffer k).length = buffer.length := by
  intro n
  induction n with
  | zero => intro buffer k; rfl
  | succ n ih => intro buffer k; rw [shiftGo, ih, List.length_set]

theorem refillGo_length (seeks : List Int) : ∀ (n : Nat) (buffer : List Int) (i si : Nat),
    ((refillGo seeks n buffer i si).1).length = buffer.length := by
  intro n
  induction n with
  | zero => intro buffer i si; rfl
  | succ n ih => intro buffer i si; rw [refillGo, ih, List.length_set]

theorem refillGo_snd (seeks : List Int) : ∀ (n : Nat) (buffer : List Int) (i si : Nat),
    (refillGo seeks n buffer i si).2 = si + n := by
  intro n
  induction n with
  | zero => intro buffer i si; rfl
  | succ n ih => intro buffer i si; rw [refillGo, ih]; omega

theorem prefillGo_getD (seeks : List Int) : ∀ (n : Nat) (buffer : List Int) (i q : Nat),
    q < buffer.length →
    (prefillGo seeks n buffer i).getD q 0 =
      if i ≤ q ∧ q < i + n then seeks.getD q 0 else buffer.getD q 0 := by
  intro n
  induction n with
  | zero =>
    intro buffer i q _
    rw [prefillGo, if_neg (by omega)]
  | succ n ih =>
    intro buffer i q hq
    rw [prefillGo, ih (buffer.set i (seeks.getD i 0)) (i + 1) q (by rwa [List.length_set])]
    by_cases h1 : i + 1 ≤ q ∧ q < i + 1 + n
    · rw [if_pos h1, if_pos (by omega)]
    · rw [if_neg h1, getD_set_lt buffer i q _ hq]
      by_cases h2 : i = q
      · subst h2
        rw [if_pos rfl, if_pos (by omega)]
      · rw [if_neg h2, if_neg (by omega)]

theorem shiftGo_getD (cs : Nat) (hcs : 1 ≤ cs) : ∀ (n : Nat) (buffer : List Int) (k q : Nat),
    cs ≤ k → k + n ≤ buffer.length → q < buffer.length →
    (shiftGo cs n buffer k).getD q 0 =
      if k - cs ≤ q ∧ q < k + n - cs then buffer.getD (q + cs) 0 else buffer.getD q 0 := by
  intro n
  induction n with
  | zero =>
    intro buffer k q _ _ _
    rw [shiftGo, if_neg (by omega)]
  | succ n ih =>
    intro buffer k q hk hlen hq
    rw [shiftGo, ih (buffer.set (k - cs) (buffer.getD k 0)) (k + 1) q (by omega)
      (by rw [List.length_set]; omega) (by rwa [List.length_set])]
    by_cases h1 : k + 1 - cs ≤ q ∧ q < k + 1 + n - cs
    · rw [if_pos h1, if_pos (by omega)]
      rw [getD_set_lt buffer (k - cs) (q + cs) _ (by omega)]
      rw [if_neg (by omega)]
    · rw [if_neg h1, getD_set_lt buffer (k - cs) q _ hq]
      by_cases h2 : k - cs = q
      · rw [if_pos h2, if_pos (by omega)]
        have hqk : q + cs = k := by omega
        rw [hqk]
      · rw [if_neg h2, if_neg (by omega)]

theorem refillGo_getD (seeks : List Int) : ∀ (n : Nat) (buffer : List Int) (i si q : Nat),
    q < buffer.length →
    ((refillGo seeks n buffer i si).1).getD q 0 =
      if i ≤ q ∧ q < i + n then seeks.getD (si + (q - i)) 0 else buffer.getD q 0 := by
  intro n
  induction n with
  | zero =>
    intro buffer i si q _
    rw [refillGo, if_neg (by omega)]
  | succ n ih =>
    intro buffer i si q hq
    rw [refillGo, ih (buffer.set i (seeks.getD si 0)) (i + 1) (si + 1) q
      (by rwa [List.length_set])]
    by_cases h1 : i + 1 ≤ q ∧ q < i + 1 + n
    · rw [if_pos h1, if_pos (by omega)]
      have hidx : si + 1 + (q - (i + 1)) = si + (q - i) := by omega
      rw [hidx]
    · rw [if_neg h1, getD_set_lt buffer i q _ hq]
      by_cases h2 : i = q
      · subst h2
        rw [if_pos rfl, if_pos (by omega)]
        have hidx : si + (i - i) = si := by omega
        rw [hidx]
      · rw [if_neg h2, if_neg (by omega)]

theorem chunksOf20_nil : ∀ fuel : Nat, chunksOf20 fuel [] = [] := by
  intro fuel
  cases fuel <;> rfl

theorem chunksOf20_fuel_irrel : ∀ (f1 f2 : Nat) (l : List Int),
    l.length ≤ f1 → l.length ≤ f2 → chunksOf20 f1 l = chunksOf20 f2 l := by
  intro f1
  induction f1 with
  | zero =>
    intro f2 l h1 _
    have hnil : l = [] := List.eq_nil_of_length_eq_zero (Nat.le_zero.mp h1)
    subst hnil
    rw [chunksOf20_nil, chunksOf20_nil]
  | succ f1 ih =>
    intro f2 l h1 h2
    cases l with
    | nil => rw [chunksOf20_nil, chunksOf20_nil]
    | cons x xs =>
      cases f2 with
      | zero => simp at h2
      | succ f2 =>
        simp only [chunksOf20]
        congr 1
        apply ih
        · simp only [List.length_drop, List.length_cons] at *
          omega
        · simp only [List.length_drop, List.length_cons] at *
          omega

theorem chunksOf20_flatten : ∀ (fuel : Nat) (l : List Int), l.length ≤ fuel →
    (chunksOf20 fuel l).flatten = l := by
  intro fuel
  induction fuel with
  | zero =>
    intro l h
    have hnil : l = [] := List.eq_nil_of_length_eq_zero (Nat.le_zero.mp h)
    subst hnil
    rfl
  | succ fuel ih =>
    intro l h
    cases l with
    | nil => rfl
    | cons x xs =>
      simp only [chunksOf20, List.flatten_cons]
      rw [ih ((x :: xs).drop 20) (by simp only [List.length_drop, List.length_cons] at *; omega)]
      exact List.take_append_drop 20 (x :: xs)

theorem chunksOf20_mem : ∀ (fuel : Nat) (l c : List Int), l.length ≤ fuel →
    c ∈ chunksOf20 fuel l → c.length ≤ 20 ∧ c ≠ [] := by
  intro fuel
  induction fuel with
  | zero =>
    intro l c h hc
    have hnil : l = [] := List.eq_nil_of_length_eq_zero (Nat.le_zero.mp h)
    subst hnil
    simp [chunksOf20_nil] at hc
  | succ fuel ih =>
    intro l c h hc
    cases l with
    | nil => simp [chunksOf20_nil] at hc
    | cons x xs =>
      simp only [chunksOf20] at hc
      rcases List.mem_cons.mp hc with rfl | hc
      · constructor
        · rw [List.length_take]
          omega
        · rw [List.take_succ_cons]
          exact List.cons_ne_nil x _
      · exact ih ((x :: xs).drop 20) c
          (by simp only [List.length_drop, List.length_cons] at *; omega) hc

theorem chunksOf20_split (l : List Int) (f : Nat) (hl : l ≠ []) (hf : l.length ≤ f) :
    chunksOf20 f l =
      l.take 20 :: chunksOf20 (l.length - min 20 l.length) (l.drop (min 20 l.length)) := by
  cases f with
  | zero =>
    cases l with
    | nil => exact absurd rfl hl
    | cons x xs => simp at hf
  | succ f =>
    cases l with
    | nil => exact absurd rfl hl
    | cons x xs =>
      simp only [chunksOf20]
      congr 1
      by_cases h20 : 20 ≤ (x :: xs).length
      · have hmin : min 20 (x :: xs).length = 20 := by omega
        rw [hmin]
        apply chunksOf20_fuel_irrel
        · rw [List.length_drop]
          simp only [List.length_cons] at *
          omega
        · rw [List.length_drop]
      · have hd1 : (x :: xs).drop 20 = [] := List.drop_eq_nil_of_le (by omega)
        have hd2 : (x :: xs).drop (min 20 (x :: xs).length) = [] :=
          List.drop_eq_nil_of_le (by omega)
        rw [hd1, hd2, chunksOf20_nil, chunksOf20_nil]

theorem processChunk_elev_length (st : SimState) (c : List Int) :
    (processChunk st c).2.elev.order.length = c.length := by
  have e1 : (processChunk st c).2.elev.order =
      elevatorAlgorithm st.elevatorStart (shortestSeekFirst st.shortestStart c).1 := rfl
  rw [e1, (elevatorAlgorithm_perm _ _).length_eq]
  show ((sstfGo c.length st.shortestStart c).1).length = c.length
  rw [(sstfGo_perm _ _ _).length_eq]

/-- The heart of C10: the sliding-window buffer machinery of processInChunks
processes exactly the consecutive min(20, remaining)-sized chunks of the
input, in arrival order, threading the per-policy state. -/
theorem chunkLoop_eq (seeks : List Int) : ∀ (fuel : Nat) (buffer : List Int)
    (remaining : Nat) (st : SimState),
    remaining ≤ fuel → remaining ≤ seeks.length → buffer.length = 100 →
    (∀ i, i < min 100 remaining →
      buffer.getD i 0 = seeks.getD (seeks.length - remaining + i) 0) →
    chunkLoop seeks fuel buffer remaining (seeks.length - remaining + min 100 remaining) st =
      processAll st (chunksOf20 remaining (seeks.drop (seeks.length - remaining))) := by
  intro fuel
  induction fuel with
  | zero =>
    intro buffer remaining st h1 h2 h3 h4
    have hr : remaining = 0 := Nat.le_zero.mp h1
    subst hr
    rfl
  | succ fuel ih =>
    intro buffer remaining st h1 h2 h3 h4
    by_cases hr : remaining = 0
    · subst hr
      rfl
    · have hdroplen : (seeks.drop (seeks.length - remaining)).length = remaining := by
        rw [List.length_drop]; omega
      -- the chunk taken from the buffer window is the next min(20, remaining) arrivals
      have hchunk : buffer.take (min 20 remaining) =
          (seeks.drop (seeks.length - remaining)).take 20 := by
        apply list_eq_of_getD
        · rw [List.length_take, List.length_take, hdroplen, h3]
          omega
        · intro q hq
          rw [List.length_take, h3] at hq
          rw [getD_take buffer (min 20 remaining) q (by omega),
            getD_take _ 20 q (by omega), getD_drop]
          have hidx : seeks.length - remaining + q = seeks.length - remaining + q := rfl
          exact h4 q (by omega)
      -- splitting off the first chunk of the reference chunking
      have hne : seeks.drop (seeks.length - remaining) ≠ [] := by
        intro hcon
        rw [hcon] at hdroplen
        simp at hdroplen
        omega
      have hsplit := chunksOf20_split (seeks.drop (seeks.length - remaining)) remaining hne
        (le_of_eq hdroplen)
      rw [hdroplen, List.drop_drop] at hsplit
      have hidx1 : seeks.length - remaining + min 20 remaining =
          seeks.length - (remaining - min 20 remaining) := by omega
      rw [hidx1, ← hchunk] at hsplit
      -- abbreviations for the step
      have hel : (processChunk st (buffer.take (min 20 remaining))).2.elev.order.length =
          min 20 remaining := by
        rw [processChunk_elev_length, List.length_take, h3]
        omega
      have hMlen : ((processChunk st (buffer.take (min 20 remaining))).2.elev.order ++
          buffer.drop (min 20 remaining)).length = 100 := by
        rw [List.length_append, hel, List.length_drop, h3]
        omega
      have hM : ∀ k, min 20 remaining ≤ k → k < 100 →
          ((processChunk st (buffer.take (min 20 remaining))).2.elev.order ++
            buffer.drop (min 20 remaining)).getD k 0 = buffer.getD k 0 := by
        intro k hk1 hk2
        rw [getD_append_ge _ _ k (by rw [hel]; omega), hel, getD_drop]
        have hidx : min 20 remaining + (k - min 20 remaining) = k := by omega
        rw [hidx]
      -- the shifted buffer agrees with the original window shifted down
      have hSlen : (shiftGo (min 20 remaining) (min 100 remaining - min 20 remaining)
          ((processChunk st (buffer.take (min 20 remaining))).2.elev.order ++
            buffer.drop (min 20 remaining)) (min 20 remaining)).length = 100 := by
        rw [shiftGo_length, hMlen]
      have hS : ∀ q, q < min 100 remaining - min 20 remaining →
          (shiftGo (min 20 remaining) (min 100 remaining - min 20 remaining)
            ((processChunk st (buffer.take (min 20 remaining))).2.elev.order ++
              buffer.drop (min 20 remaining)) (min 20 remaining)).getD q 0 =
            buffer.getD (q + min 20 remaining) 0 := by
        intro q hq
        rw [shiftGo_getD (min 20 remaining) (by omega) (min 100 remaining - min 20 remaining)
          _ (min 20 remaining) q (le_refl _) (by rw [hMlen]; omega) (by rw [hMlen]; omega)]
        rw [if_pos (by omega)]
        exact hM (q + min 20 remaining) (by omega) (by omega)
      -- the refilled buffer satisfies the window invariant for the next round
      have hRlen : ((refillGo seeks
          (min 100 (remaining - min 20 remaining) - (min 100 remaining - min 20 remaining))
          (shiftGo (min 20 remaining) (min 100 remaining - min 20 remaining)
            ((processChunk st (buffer.take (min 20 remaining))).2.elev.order ++
              buffer.drop (min 20 remaining)) (min 20 remaining))
          (min 100 remaining - min 20 remaining)
          (seeks.length - remaining + min 100 remaining)).1).length = 100 := by
        rw [refillGo_length, hSlen]
      have hinv2 : ∀ i, i < min 100 (remaining - min 20 remaining) →
          ((refillGo seeks
            (min 100 (remaining - min 20 remaining) - (min 100 remaining - min 20 remaining))
            (shiftGo (min 20 remaining) (min 100 remaining - min 20 remaining)
              ((processChunk st (buffer.take (min 20 remaining))).2.elev.order ++
                buffer.drop (min 20 remaining)) (min 20 remaining))
            (min 100 remaining - min 20 remaining)
            (seeks.length - remaining + min 100 remaining)).1).getD i 0 =
          seeks.getD (seeks.length - (remaining - min 20 remaining) + i) 0 := by
        intro i hi
        rw [refillGo_getD seeks _ _ _ _ i (by rw [hSlen]; omega)]
        by_cases hcase : min 100 remaining - min 20 remaining ≤ i ∧
            i < min 100 remaining - min 20 remaining +
              (min 100 (remaining - min 20 remaining) -
                (min 100 remaining - min 20 remaining))
        · rw [if_pos hcase]
          have hidx : seeks.length - remaining + min 100 remaining +
              (i - (min 100 remaining - min 20 remaining)) =
              seeks.length - (remaining - min 20 remaining) + i := by omega
          rw [hidx]
        · have hii : i < min 100 remaining - min 20 remaining := by omega
          rw [if_neg hcase, hS i hii, h4 (i + min 20 remaining) (by omega)]
          have hidx : seeks.length - remaining + (i + min 20 remaining) =
              seeks.length - (remaining - min 20 remaining) + i := by omega
          rw [hidx]
      -- the advanced seekIndex is the canonical one for the next round
      have hrf2 : (refillGo seeks
          (min 100 (remaining - min 20 remaining) - (min 100 remaining - min 20 remaining))
          (shiftGo (min 20 remaining) (min 100 remaining - min 20 remaining)
            ((processChunk st (buffer.take (min 20 remaining))).2.elev.order ++
              buffer.drop (min 20 remaining)) (min 20 remaining))
          (min 100 remaining - min 20 remaining)
          (seeks.length - remaining + min 100 remaining)).2 =
          seeks.length - (remaining - min 20 remaining) +
            min 100 (remaining - min 20 remaining) := by
        rw [refillGo_snd]
        omega
      -- put the step together
      have hrec := ih ((refillGo seeks
          (min 100 (remaining - min 20 remaining) - (min 100 remaining - min 20 remaining))
          (shiftGo (min 20 remaining) (min 100 remaining - min 20 remaining)
            ((processChunk st (buffer.take (min 20 remaining))).2.elev.order ++
              buffer.drop (min 20 remaining)) (min 20 remaining))
          (min 100 remaining - min 20 remaining)
          (seeks.length - remaining + min 100 remaining)).1)
        (remaining - min 20 remaining)
        (processChunk st (buffer.take (min 20 remaining))).1
        (by omega) (by omega) hRlen hinv2
      rw [hsplit]
      simp only [chunkLoop, processAll, hr, if_false]
      rw [hrf2, hrec]

theorem walkTally_fst (l : List Int) : ∀ pos : Int, (walkTally pos l).1 = l.getLastD pos := by
  induction l with
  | nil => intro pos; rfl
  | cons x xs ih => intro pos; rw [List.getLastD_cons]; exact ih x

/-- The per-policy state update of one processChunk call: each policy's start
becomes its final serviced position on the chunk (the last position of the
order the distance was measured over; for SSTF the algorithm's final head),
and each tally grows by that chunk's effective seek count. -/
theorem processChunk_state (st : SimState) (c : List Int) :
    (processChunk st c).1.firstComeStart = c.getLastD st.firstComeStart ∧
    (processChunk st c).1.shortestStart = (shortestSeekFirst st.shortestStart c).2.1 ∧
    (processChunk st c).1.elevatorStart =
      ((processChunk st c).2.elev.order).getLastD st.elevatorStart ∧
    (processChunk st c).1.firstComeTally =
      st.firstComeTally + (walkTally st.firstComeStart c).2 ∧
    (processChunk st c).1.shortestTally =
      st.shortestTally + (shortestSeekFirst st.shortestStart c).2.2 ∧
    (processChunk st c).1.elevatorTally =
      st.elevatorTally + (walkTally st.elevatorStart (processChunk st c).2.elev.order).2 := by
  refine ⟨?_, rfl, ?_, rfl, rfl, rfl⟩
  · exact walkTally_fst c st.firstComeStart
  · exact walkTally_fst _ st.elevatorStart

/-- C10.  processInChunks equals the fold of processChunk over the
consecutive min(20, remaining)-sized chunks of the input: the chunks cover
every request exactly once in arrival order (their concatenation is the
input, each is nonempty of size at most 20), the per-policy head state at the
start of a chunk is that policy's final serviced position from the previous
chunk (the configured initial position for the first), and the per-policy
tallies accumulate across chunks. -/
theorem C10_chunked_processing (seeks : List Int) (st : SimState) :
    processInChunks seeks st = processAll st (chunks20 seeks) ∧
    (chunks20 seeks).flatten = seeks ∧
    (∀ c ∈ chunks20 seeks, c.length ≤ 20 ∧ c ≠ []) ∧
    (∀ (st' : SimState) (c : List Int),
      (processChunk st' c).1.firstComeStart = c.getLastD st'.firstComeStart ∧
      (processChunk st' c).1.shortestStart = (shortestSeekFirst st'.shortestStart c).2.1 ∧
      (processChunk st' c).1.elevatorStart =
        ((processChunk st' c).2.elev.order).getLastD st'.elevatorStart ∧
      (processChunk st' c).1.firstComeTally =
        st'.firstComeTally + (walkTally st'.firstComeStart c).2 ∧
      (processChunk st' c).1.shortestTally =
        st'.shortestTally + (shortestSeekFirst st'.shortestStart c).2.2 ∧
      (processChunk st' c).1.elevatorTally =
        st'.elevatorTally + (walkTally st'.elevatorStart (processChunk st' c).2.elev.order).2) := by
  refine ⟨?_, chunksOf20_flatten seeks.length seeks (le_refl _),
    fun c hc => chunksOf20_mem seeks.length seeks c (le_refl _) hc,
    fun st' c => processChunk_state st' c⟩
  have hlen : (prefillGo seeks (min 100 seeks.length) (List.replicate 100 0) 0).length = 100 := by
    rw [prefillGo_length, List.length_replicate]
  have hinv : ∀ i, i < min 100 seeks.length →
      (prefillGo seeks (min 100 seeks.length) (List.replicate 100 0) 0).getD i 0 =
        seeks.getD (seeks.length - seeks.length + i) 0 := by
    intro i hi
    rw [prefillGo_getD seeks (min 100 seeks.length) (List.replicate 100 0) 0 i
      (by rw [List.length_replicate]; omega)]
    rw [if_pos (by omega)]
    have hidx : seeks.length - seeks.length + i = i := by omega
    rw [hidx]
  have h := chunkLoop_eq seeks seeks.length
    (prefillGo seeks (min 100 seeks.length) (List.replicate 100 0) 0) seeks.length st
    (le_refl _) (le_refl _) hlen hinv
  have e1 : seeks.length - seeks.length + min 100 seeks.length = min 100 seeks.length := by
    omega
  have e2 : seeks.length - seeks.length = 0 := by omega
  rw [e1, e2, List.drop_zero] at h
  exact h

/-- C10 witness: at the concrete input [3, 1, 2], the single chunk is the
whole input, and the chunk-shape facts hold for it. -/
theorem C10_chunked_processing_witness :
    ([3, 1, 2] : List Int) ∈ chunks20 ([3, 1, 2] : List Int) ∧
    ([3, 1, 2] : List Int).length ≤ 20 ∧ ([3, 1, 2] : List Int) ≠ [] := by
  have h := (C10_chunked_processing [3, 1, 2] (initState none)).2.2.1 [3, 1, 2] (by decide)
  exact ⟨by decide, h.1, h.2⟩

end DiskSim
